import Mathlib

/-!
Verification of the ci-operator step-graph engine (`cmd/ci-operator/main.go`).

The definitions below are a shallow embedding of the Go source.  Pure
functions become Lean functions; fallible Go functions return `Except`;
machine integers are `Nat` with explicit reductions modulo `2^32` where the
Go code computes on `uint32`.  The `api` and `steps` packages are not part
of the repository snapshot, so the handful of values imported from them
(`api.StepLink`, `api.HasAllLinks`, `api.BuildPartialGraph`) are modelled
from the specification, each marked as such in its doc comment.
-/

/-- Modelled from the spec: `api.StepLink`, the opaque artifact identifier.
The spec enumerates the variants (root source, base image, release,
pipeline image, images ready, rpms, external image) and states that
equality is structural on variant plus payload. -/
inductive StepLink where
  | rootSource (org repo : String)
  | baseImage (name : String)
  | releaseImages (name : String)
  | internalImage (name : String)
  | imagesReady
  | rpmRepo
  | externalImage (name : String)
deriving DecidableEq

instance {ε α : Type} [DecidableEq ε] [DecidableEq α] : DecidableEq (Except ε α) := fun a b =>
  match a, b with
  | .error x, .error y => decidable_of_iff (x = y) (by simp)
  | .error _, .ok _ => isFalse (by simp)
  | .ok _, .error _ => isFalse (by simp)
  | .ok x, .ok y => decidable_of_iff (x = y) (by simp)

/-- The step contract of `api.Step`: name, requires, creates, inputs.
`Inputs(ctx, dry)` performs remote reads and can fail; for a fixed run its
outcome is embedded as an `Except` value.  `run`/`done` are side-effecting
and not needed by the claims about the graph engine. -/
structure Step where
  name : String
  requires : List StepLink
  creates : List StepLink
  inputs : Except String (List String)
deriving DecidableEq

/-- `api.StepNode`: a step plus the nodes that depend on it (children). -/
inductive StepNode where
  | mk (step : Step) (children : List StepNode)

def StepNode.step : StepNode → Step
  | .mk s _ => s

def StepNode.children : StepNode → List StepNode
  | .mk _ cs => cs

/-- Modelled from the spec: `api.HasAllLinks(required, satisfied)` is true
iff every element of `required` is structurally equal to some element of
`satisfied`. -/
def HasAllLinks (required satisfied : List StepLink) : Bool :=
  required.all (fun r => satisfied.any (fun s => decide (r = s)))

/-! ## SHA-256 (Go `crypto/sha256`), over byte lists -/

/-- `2^32`, the modulus for 32-bit arithmetic. -/
def w32 : Nat := 4294967296

def rotr32 (n x : Nat) : Nat := ((x >>> n) ||| (x <<< (32 - n))) % w32

def bsig0 (x : Nat) : Nat := (rotr32 2 x ^^^ rotr32 13 x) ^^^ rotr32 22 x
def bsig1 (x : Nat) : Nat := (rotr32 6 x ^^^ rotr32 11 x) ^^^ rotr32 25 x
def ssig0 (x : Nat) : Nat := (rotr32 7 x ^^^ rotr32 18 x) ^^^ (x >>> 3)
def ssig1 (x : Nat) : Nat := (rotr32 17 x ^^^ rotr32 19 x) ^^^ (x >>> 10)
def chF (x y z : Nat) : Nat := (x &&& y) ^^^ ((w32 - 1 - x % w32) &&& z)
def majF (x y z : Nat) : Nat := ((x &&& y) ^^^ (x &&& z)) ^^^ (y &&& z)

/-- The 64 SHA-256 round constants of FIPS 180-4, in decimal. -/
def sha256K : List Nat :=
  [1116352408, 1899447441, 3049323471, 3921009573, 961987163,
   1508970993, 2453635748, 2870763221, 3624381080, 310598401,
   607225278, 1426881987, 1925078388, 2162078206, 2614888103,
   3248222580, 3835390401, 4022224774, 264347078, 604807628,
   770255983, 1249150122, 1555081692, 1996064986, 2554220882,
   2821834349, 2952996808, 3210313671, 3336571891, 3584528711,
   113926993, 338241895, 666307205, 773529912, 1294757372,
   1396182291, 1695183700, 1986661051, 2177026350, 2456956037,
   2730485921, 2820302411, 3259730800, 3345764771, 3516065817,
   3600352804, 4094571909, 275423344, 430227734, 506948616,
   659060556, 883997877, 958139571, 1322822218, 1537002063,
   1747873779, 1955562222, 2024104815, 2227730452, 2361852424,
   2428436474, 2756734187, 3204031479, 3329325298]

/-- The eight SHA-256 initial hash values of FIPS 180-4, in decimal. -/
def sha256H0 : List Nat :=
  [1779033703, 3144134277, 1013904242, 2773480762,
   1359893119, 2600822924, 528734635, 1541459225]

/-- Big-endian 8-byte encoding of a (length) value. -/
def be64 (n : Nat) : List Nat :=
  [(n >>> 56) % 256, (n >>> 48) % 256, (n >>> 40) % 256, (n >>> 32) % 256,
   (n >>> 24) % 256, (n >>> 16) % 256, (n >>> 8) % 256, n % 256]

/-- SHA-256 padding: append `0x80`, zeros to 56 mod 64, then the bit length. -/
def padMessage (msg : List Nat) : List Nat :=
  msg ++ [0x80] ++ List.replicate ((119 - msg.length % 64) % 64) 0 ++ be64 (8 * msg.length)

/-- Split a byte list into 64-byte blocks.  The `fuel` argument makes the
recursion structural (each block consumes at least one byte, so a fuel of
`l.length` always suffices). -/
def toBlocksF : Nat → List Nat → List (List Nat)
  | 0, _ => []
  | _, [] => []
  | fuel + 1, x :: xs => (x :: xs).take 64 :: toBlocksF fuel ((x :: xs).drop 64)

def toBlocks (l : List Nat) : List (List Nat) := toBlocksF l.length l

/-- The 16 big-endian 32-bit words of a 64-byte block. -/
def wordsOfBlock (b : List Nat) : List Nat :=
  match b with
  | b0 :: b1 :: b2 :: b3 :: rest =>
      (((b0 % 256) <<< 24) + ((b1 % 256) <<< 16) + ((b2 % 256) <<< 8) + b3 % 256) :: wordsOfBlock rest
  | _ => []

/-- Message-schedule extension: grow the 16 words to 64. -/
def extendSchedule (w : List Nat) (rounds : Nat) : List Nat :=
  match rounds with
  | 0 => w
  | r + 1 =>
      let n := w.length
      let next := (ssig1 (w.getD (n - 2) 0) + w.getD (n - 7) 0 +
                   ssig0 (w.getD (n - 15) 0) + w.getD (n - 16) 0) % w32
      extendSchedule (w ++ [next]) r

def msgSchedule (b : List Nat) : List Nat := extendSchedule (wordsOfBlock b) 48

/-- One round of the SHA-256 compression function on the 8-word state. -/
def sha256Round (st : List Nat) (kw : Nat × Nat) : List Nat :=
  match st with
  | [a, b, c, d, e, f, g, h] =>
      let t1 := (h + bsig1 e + chF e f g + kw.1 + kw.2) % w32
      let t2 := (bsig0 a + majF a b c) % w32
      [(t1 + t2) % w32, a, b, c, (d + t1) % w32, e, f, g]
  | _ => st

def addWords (xs ys : List Nat) : List Nat :=
  List.zipWith (fun a b => (a + b) % w32) xs ys

/-- Process one 64-byte block into the running hash state. -/
def sha256Block (hs : List Nat) (b : List Nat) : List Nat :=
  addWords hs ((List.zip sha256K (msgSchedule b)).foldl sha256Round hs)

/-- Big-endian bytes of a 32-bit word. -/
def be32 (n : Nat) : List Nat :=
  [(n >>> 24) % 256, (n >>> 16) % 256, (n >>> 8) % 256, n % 256]

/-- SHA-256 digest (32 bytes) of a byte list, as in Go `crypto/sha256`. -/
def sha256 (msg : List Nat) : List Nat :=
  ((toBlocks (padMessage msg)).foldl sha256Block sha256H0).flatMap be32

/-! ## UTF-8 bytes of a string (Go `[]byte(s)`) -/

def charUtf8 (c : Char) : List Nat :=
  let n := c.toNat
  if n < 0x80 then [n]
  else if n < 0x800 then [0xC0 ||| (n >>> 6), 0x80 ||| (n &&& 0x3F)]
  else if n < 0x10000 then
    [0xE0 ||| (n >>> 12), 0x80 ||| ((n >>> 6) &&& 0x3F), 0x80 ||| (n &&& 0x3F)]
  else
    [0xF0 ||| (n >>> 18), 0x80 ||| ((n >>> 12) &&& 0x3F),
     0x80 ||| ((n >>> 6) &&& 0x3F), 0x80 ||| (n &&& 0x3F)]

def strBytes (s : String) : List Nat := s.data.flatMap charUtf8

/-! ## Base32 with the custom alphabet (`oneWayNameEncoding`) -/

/-- The 32-symbol alphabet of `oneWayNameEncoding` in `main.go`:
`base32.NewEncoding("bcdfghijklmnpqrstvwxyz0123456789")`. -/
def b32alphabet : List Char := "bcdfghijklmnpqrstvwxyz0123456789".data

/-- Base32 (RFC 4648 bit order, as in Go `encoding/base32`) with
`base32.NoPadding`: the big-endian bit string is cut into 5-bit groups,
the last group zero-padded on the right, each group mapped through the
alphabet, and no `=` padding is appended. -/
def b32encode (bytes : List Nat) : List Char :=
  let n := bytes.foldl (fun acc b => acc * 256 + b % 256) 0
  let m := (8 * bytes.length + 4) / 5
  let n2 := n <<< (5 * m - 8 * bytes.length)
  (List.range m).map (fun i => b32alphabet.getD ((n2 >>> (5 * (m - 1 - i))) % 32) 'b')

/-- `api.InputDefinition`: an ordered list of strings. -/
abbrev InputDefinition := List String

/-- `inputHash` from `main.go`: hash the concatenation of the inputs with
SHA-256, truncate the digest to its first 5 bytes, and encode with
`oneWayNameEncoding` (no padding). -/
def inputHash (inputs : InputDefinition) : String :=
  String.mk (b32encode ((sha256 (inputs.flatMap strBytes)).take 5))

/-! ## String replacement (Go `strings.Replace(s, old, new, -1)`) -/

/-- Go `strings.Replace` with `n < 0`: replace every non-overlapping
occurrence of `pat`, scanning left to right.  The `fuel` argument makes
the recursion structural (with a non-empty pattern each step consumes at
least one character, so a fuel of `s.length` always suffices; the Go
corner case of an empty pattern never arises here). -/
def replaceAllF (pat rep : List Char) : Nat → List Char → List Char
  | 0, s => s
  | _, [] => []
  | fuel + 1, c :: rest =>
    if pat ≠ [] ∧ pat.isPrefixOf (c :: rest) = true then
      rep ++ replaceAllF pat rep fuel ((c :: rest).drop pat.length)
    else
      c :: replaceAllF pat rep fuel rest

def replaceAll (pat rep s : List Char) : List Char := replaceAllF pat rep s.length s

/-- Whether `pat` occurs as a contiguous subsequence of `s`. -/
def containsPat (pat s : List Char) : Bool :=
  match s with
  | [] => pat.isEmpty
  | c :: rest => pat.isPrefixOf (c :: rest) || containsPat pat rest

/-- Split `s` at every non-overlapping occurrence of `pat` (left to
right), with the same structural fuel as `replaceAllF`. -/
def splitOnPatF (pat : List Char) : Nat → List Char → List (List Char)
  | 0, s => [s]
  | _, [] => [[]]
  | fuel + 1, c :: rest =>
    if pat ≠ [] ∧ pat.isPrefixOf (c :: rest) = true then
      [] :: splitOnPatF pat fuel ((c :: rest).drop pat.length)
    else
      match splitOnPatF pat fuel rest with
      | [] => [[c]]
      | g :: gs => (c :: g) :: gs

def splitOnPat (pat s : List Char) : List (List Char) := splitOnPatF pat s.length s

def joinWith (sep : List Char) : List (List Char) → List Char
  | [] => []
  | [g] => g
  | g :: gs => g ++ sep ++ joinWith sep gs

/-- The specification reading of the namespace substitution: every
occurrence of the placeholder is replaced, i.e. the string is split on the
placeholder and rejoined with the identifier. -/
def specSubstitute (pat rep s : List Char) : List Char :=
  joinWith rep (splitOnPat pat s)

def replaceAllStr (s pat rep : String) : String :=
  String.mk (replaceAll pat.data rep.data s.data)

/-- The namespace logic of `resolveInputs` in `main.go`: default the
template to `"ci-op-\x7bid\x7d"` when none was supplied, then replace every
`\x7bid\x7d` with the input hash. -/
def applyNamespaceTemplate (nsTemplate hash : String) : String :=
  replaceAllStr (if nsTemplate.length = 0 then "ci-op-{id}" else nsTemplate) "{id}" hash

/-! ## `resolveInputs` and the pruning pipeline of `Run` -/

/-- The loop of `resolveInputs`: query `Inputs` on every step in order and
concatenate, aborting on the first error. -/
def collectInputs : List Step → Except String InputDefinition
  | [] => .ok []
  | s :: rest =>
    match s.inputs with
    | .error e => .error e
    | .ok d =>
      match collectInputs rest with
      | .error e => .error e
      | .ok ds => .ok (d ++ ds)

/-- The result fields of `options` that `resolveInputs` fills in:
`o.inputHash` and the substituted `o.namespace`. -/
structure ResolveResult where
  hash : String
  ns : String
deriving DecidableEq

/-- `resolveInputs` from `main.go`: concatenate all step inputs, append the
serialized configuration (`configSpec` is the `json.Marshal` image of the
configuration, treated as opaque bytes), hash, and substitute the
namespace template. -/
def resolveInputs (steps : List Step) (configSpec nsTemplate : String) :
    Except String ResolveResult :=
  match collectInputs steps with
  | .error e => .error e
  | .ok inputs =>
    let inputs := inputs ++ [configSpec]
    let h := inputHash inputs
    .ok { hash := h, ns := applyNamespaceTemplate nsTemplate h }

/-- Modelled from the spec: `api.BuildPartialGraph` step-set computation
(the `api` package is not in the repository snapshot).  For a non-empty
target list it computes the transitive ancestor closure of the named steps
(a step is a parent of another when it creates a link the other requires)
and keeps exactly that subset in construction order; unknown targets fail.
An empty target list keeps the whole world. -/
def parentsOf (world : List Step) (t : Step) : List Step :=
  world.filter (fun s => t.requires.any (fun l => s.creates.any (fun c => decide (c = l))))

def expandParents (world : List Step) (cur : List Step) : List Step :=
  cur ++ (cur.flatMap (parentsOf world)).filter (fun s => decide (s ∉ cur))

def ancestorClosure (world : List Step) (tgts : List Step) : List Step :=
  (List.range world.length).foldl (fun cur _ => expandParents world cur) tgts

def buildPartialGraph (world : List Step) (targets : List String) :
    Except String (List Step) :=
  match targets with
  | [] => .ok world
  | _ :: _ =>
    if targets.all (fun t => world.any (fun s => decide (s.name = t))) then
      let tgtSteps := world.filter (fun s => targets.any (fun t => decide (s.name = t)))
      let closure := ancestorClosure world tgtSteps
      .ok (world.filter (fun s => decide (s ∈ closure)))
    else .error "unknown target"

/-- The opening of `Run` in `main.go` (lines 384-397): `resolveInputs` is
called on the full `buildSteps` world first, and only then is the world
pruned to the targets by `BuildPartialGraph`. -/
def runUpToGraph (world : List Step) (targets : List String)
    (configSpec nsTemplate : String) :
    Except String (ResolveResult × List Step) :=
  match resolveInputs world configSpec nsTemplate with
  | .error e => .error e
  | .ok rr =>
    match buildPartialGraph world targets with
    | .error e => .error e
    | .ok pruned => .ok (rr, pruned)

/-! ## `topologicalSort` and `printExecutionOrder` -/

/-- The per-pass mutable state of `topologicalSort`. -/
structure SortState where
  waiting : List StepNode
  seen : List Step
  satisfied : List StepLink
  sorted : List StepNode
  changed : Bool

/-- The body of the inner `for _, node := range nodes` loop of
`topologicalSort`: first append the unseen children of the node to
`waiting`, then skip the node if seen, emit it if its requires are all
satisfied, and otherwise append it to `waiting`. -/
def processNode (st : SortState) (node : StepNode) : SortState :=
  if node.step ∈ st.seen then
    { st with waiting := st.waiting ++ node.children.filter (fun c => decide (c.step ∉ st.seen)) }
  else if HasAllLinks node.step.requires st.satisfied then
    { waiting := st.waiting ++ node.children.filter (fun c => decide (c.step ∉ st.seen)),
      seen := st.seen ++ [node.step],
      satisfied := st.satisfied ++ node.step.creates,
      sorted := st.sorted ++ [node], changed := true }
  else
    { st with waiting :=
        (st.waiting ++ node.children.filter (fun c => decide (c.step ∉ st.seen))) ++ [node] }

/-- One pass of the outer loop of `topologicalSort`. -/
def sortPass (nodes : List StepNode) (seen : List Step)
    (satisfied : List StepLink) (sorted : List StepNode) : SortState :=
  nodes.foldl processNode
    { waiting := [], seen := seen, satisfied := satisfied, sorted := sorted, changed := false }

/-- The outer loop of `topologicalSort`.  The fuel is an embedding
artifact standing for the (unconditional) termination of the Go loop; the
initial fuel in `topologicalSort` below always suffices, since a pass that
emits nothing either errors or ends the loop, and each emitting pass
records a step of the forest as seen. -/
def sortLoop : Nat → List StepNode → List Step → List StepLink → List StepNode →
    Except String (List StepNode)
  | 0, _, _, _, _ => .error "steps are missing dependencies"
  | fuel + 1, nodes, seen, satisfied, sorted =>
    match nodes with
    | [] => .ok sorted
    | _ :: _ =>
      let st := sortPass nodes seen satisfied sorted
      if st.changed = false ∧ st.waiting.isEmpty = false then
        .error "steps are missing dependencies"
      else
        sortLoop fuel st.waiting st.seen st.satisfied st.sorted

mutual
def nodeSteps : StepNode → List Step
  | .mk s cs => s :: forestSteps cs
def forestSteps : List StepNode → List Step
  | [] => []
  | n :: ns => nodeSteps n ++ forestSteps ns
end

/-- `topologicalSort` from `main.go`. -/
def topologicalSort (nodes : List StepNode) : Except String (List StepNode) :=
  sortLoop ((forestSteps nodes).length + 2) nodes [] [] []

/-- A list of nodes is a valid linearization relative to already-satisfied
links: every node's requires are covered by `sat` plus the creates of the
strictly earlier nodes. -/
def linearizedFrom (sat : List StepLink) : List StepNode → Bool
  | [] => true
  | n :: rest => HasAllLinks n.step.requires sat && linearizedFrom (sat ++ n.step.creates) rest

/-- `nodeNames` from `main.go`.  (For a step with an empty name Go prints
the dynamic type `<%T>`; the type name is outside the model and embedded
as a fixed placeholder.) -/
def nodeNames (nodes : List StepNode) : List String :=
  nodes.map (fun n => if n.step.name.length = 0 then "<step>" else n.step.name)

/-- `printExecutionOrder` from `main.go`, returning the logged line. -/
def printExecutionOrder (nodes : List StepNode) : Except String String :=
  match topologicalSort nodes with
  | .error e => .error e
  | .ok ordered => .ok ("Running " ++ String.intercalate ", " (nodeNames ordered))

/-! ## The tail of `Run`: JUnit write and post steps -/

/-- `writeJUnit` from `main.go`: returns success at once when no artifact
directory is configured or there are no suites; otherwise the outcome of
the external XML marshal and file write (`ioErr`). -/
def writeJUnit (artifactDir : String) (suitesPresent : Bool)
    (ioErr : Option String) : Option String :=
  if artifactDir.length = 0 ∨ suitesPresent = false then none else ioErr

def firstErr : List (Option String) → Option String
  | [] => none
  | some e :: _ => some e
  | none :: rest => firstErr rest

/-- What the closure in `Run` returns together with what it logs. -/
structure RunOutcome where
  result : Option String
  warnings : List String
deriving DecidableEq

/-- The tail of `Run` (lines 410-424): execute the graph (`stepsErr` is
the error of `steps.Run`), always attempt the JUnit write and log a
warning on its failure, return the step error if any, and otherwise run
the post steps sequentially, aborting on the first error. -/
def runTail (stepsErr : Option String) (artifactDir : String)
    (suitesPresent : Bool) (junitIOErr : Option String)
    (postErrs : List (Option String)) : RunOutcome :=
  let warnings :=
    match writeJUnit artifactDir suitesPresent junitIOErr with
    | some e => ["warning: Unable to write JUnit result: " ++ e]
    | none => []
  match stepsErr with
  | some e => { result := some e, warnings := warnings }
  | none => { result := firstErr postErrs, warnings := warnings }

/-! ## `initializeNamespace` -/

inductive ClusterOp where
  | createProject (ns : String)
  | createServiceAccount (ns name : String)
  | createRoleBinding (ns name : String)
  | createPod (ns name : String)
  | createImageStream (ns name : String)
  | createSecret (ns name : String)
deriving DecidableEq

/-- The cluster objects `initializeNamespace` touches. -/
structure ClusterState where
  projects : List String
  serviceAccounts : List (String × String)
  roleBindings : List (String × String)
  pods : List (String × String)
  imageStreams : List (String × String)
  secretObjs : List (String × String)
deriving DecidableEq

/-- `initializeNamespace` from `main.go`: return immediately in dry mode;
otherwise create the project, the idle-cleanup service account, role
binding and pod (when an idle-cleanup duration is set), the pipeline
image stream, and the secrets.  The external cluster responses are
modelled as idempotent create-or-reuse (already-exists is recovered
locally, as in the source); the retry/backoff against a live cluster is
outside the model. -/
def initializeNamespace (dry : Bool) (ns : String) (idleCleanupSeconds : Nat)
    (secretNames : List String) (st : ClusterState) :
    Except String ClusterState × List ClusterOp :=
  if dry then (.ok st, [])
  else
    let (st, ops1) :=
      if ns ∈ st.projects then (st, ([] : List ClusterOp))
      else ({ st with projects := st.projects ++ [ns] }, [ClusterOp.createProject ns])
    let (st, ops2) :=
      if idleCleanupSeconds = 0 then (st, ([] : List ClusterOp))
      else
        let (st, a) :=
          if (ns, "cleanup") ∈ st.serviceAccounts then (st, ([] : List ClusterOp))
          else ({ st with serviceAccounts := st.serviceAccounts ++ [(ns, "cleanup")] },
                [ClusterOp.createServiceAccount ns "cleanup"])
        let (st, b) :=
          if (ns, "cleanup") ∈ st.roleBindings then (st, ([] : List ClusterOp))
          else ({ st with roleBindings := st.roleBindings ++ [(ns, "cleanup")] },
                [ClusterOp.createRoleBinding ns "cleanup"])
        let (st, c) :=
          if (ns, "cleanup-when-idle") ∈ st.pods then (st, ([] : List ClusterOp))
          else ({ st with pods := st.pods ++ [(ns, "cleanup-when-idle")] },
                [ClusterOp.createPod ns "cleanup-when-idle"])
        (st, a ++ b ++ c)
    let (st, ops3) :=
      if (ns, "pipeline") ∈ st.imageStreams then (st, ([] : List ClusterOp))
      else ({ st with imageStreams := st.imageStreams ++ [(ns, "pipeline")] },
            [ClusterOp.createImageStream ns "pipeline"])
    let (st, ops4) := secretNames.foldl
      (fun (acc : ClusterState × List ClusterOp) name =>
        let (st, ops) := acc
        if (ns, name) ∈ st.secretObjs then (st, ops)
        else ({ st with secretObjs := st.secretObjs ++ [(ns, name)] },
              ops ++ [ClusterOp.createSecret ns name]))
      (st, [])
    (.ok st, ops1 ++ ops2 ++ ops3 ++ ops4)

/-! ## Derived definitions for the statements -/

/-- The successful value of a step's `Inputs`, empty on error (only used
under hypotheses that rule the error out). -/
def inputsOf (s : Step) : List String :=
  match s.inputs with
  | .ok d => d
  | .error _ => []

/-- Reachability from the root list along child edges: the nodes of the
graph handed to `topologicalSort`. -/
inductive Reaches (R : List StepNode) : StepNode → Prop where
  | root {n : StepNode} : n ∈ R → Reaches R n
  | child {m c : StepNode} : Reaches R m → c ∈ m.children → Reaches R c

/-- The graph is acyclic: some rank function strictly decreases along
child edges. -/
def AcyclicGraph (R : List StepNode) : Prop :=
  ∃ rank : Step → Nat, ∀ n, Reaches R n → ∀ c ∈ n.children, rank c.step < rank n.step

/-- Every required link is producible: some node of the graph creates it
(the hypothesis of claim C5 as stated). -/
def ProducibleAll (R : List StepNode) : Prop :=
  ∀ n, Reaches R n → ∀ l ∈ n.step.requires, ∃ m, Reaches R m ∧ l ∈ m.step.creates

/-- Every required link is created by a parent of the requiring node, as
the graph builder wires children (requirer below creator). -/
def ParentWired (R : List StepNode) : Prop :=
  ∀ n, Reaches R n → ∀ l ∈ n.step.requires, ∃ m, Reaches R m ∧ n ∈ m.children ∧ l ∈ m.step.creates

/-- Each step value appears as one node: two reachable nodes with equal
steps are the same node (Go nodes are distinct pointers per step). -/
def WellFormedGraph (R : List StepNode) : Prop :=
  ∀ n m, Reaches R n → Reaches R m → n.step = m.step → n = m

/-- The loop invariant of `topologicalSort` relating `seen`, `satisfied`
and the emitted prefix `sorted`. -/
def SortInv (R : List StepNode) (seen : List Step) (satisfied : List StepLink)
    (sorted : List StepNode) : Prop :=
  seen = sorted.map StepNode.step ∧
  satisfied = sorted.flatMap (fun n => n.step.creates) ∧
  linearizedFrom [] sorted = true ∧
  (sorted.map StepNode.step).Nodup ∧
  (∀ n ∈ sorted, Reaches R n)

/-- The discovery invariant of the worklist: every unseen reachable node
that is a root of the call or has a parent whose step is already seen is
present in the current worklist. -/
def Vinv (R : List StepNode) (nodes : List StepNode) (seen : List Step) : Prop :=
  ∀ n, Reaches R n → n.step ∉ seen →
    (n ∈ R ∨ ∃ m, Reaches R m ∧ n ∈ m.children ∧ m.step ∈ seen) → n ∈ nodes

/-- The full per-state invariant: `SortInv` on the emitted part plus
reachability of everything in the waiting list. -/
def StInv (R : List StepNode) (st : SortState) : Prop :=
  SortInv R st.seen st.satisfied st.sorted ∧ (∀ n ∈ st.waiting, Reaches R n)

/-! ## Fixtures for witnesses and counterexamples -/

def fixLink : StepLink := .internalImage "x"

/-- Two independent steps with distinct inputs (for the pruning claims). -/
def c1stepA : Step := { name := "a", requires := [], creates := [], inputs := .ok ["inA"] }
def c1stepB : Step := { name := "b", requires := [], creates := [], inputs := .ok ["inB"] }

def w3srcStep : Step := { name := "src", requires := [], creates := [], inputs := .ok ["sha1"] }
def w3imgStep : Step := { name := "img", requires := [], creates := [], inputs := .ok ["tagA", "tagB"] }

/-- A root that requires a link created by its own child: its requires
are producible within the graph, yet no pass can make progress. -/
def cx5rootStep : Step := { name := "a", requires := [fixLink], creates := [], inputs := .ok [] }
def cx5childStep : Step := { name := "b", requires := [], creates := [fixLink], inputs := .ok [] }
def cx5child : StepNode := .mk cx5childStep []
def cx5root : StepNode := .mk cx5rootStep [cx5child]

/-- A single isolated step (witness graph for the amended claim C5). -/
def w5step : Step := { name := "solo", requires := [], creates := [fixLink], inputs := .ok [] }
def w5node : StepNode := .mk w5step []

/-- Two ready roots listed in the order [b, a] (for claim C6). -/
def cx6bStep : Step := { name := "b", requires := [], creates := [], inputs := .ok [] }
def cx6aStep : Step := { name := "a", requires := [], creates := [], inputs := .ok [] }
def cx6b : StepNode := .mk cx6bStep []
def cx6a : StepNode := .mk cx6aStep []

/-! ## Length and alphabet facts about the hash encoding -/

theorem sha256Round_length (st : List Nat) (kw : Nat × Nat) :
    (sha256Round st kw).length = st.length := by
  unfold sha256Round
  split <;> simp

theorem foldl_sha256Round_length (l : List (Nat × Nat)) :
    ∀ hs : List Nat, (l.foldl sha256Round hs).length = hs.length := by
  induction l with
  | nil => intro hs; rfl
  | cons x xs ih => intro hs; rw [List.foldl_cons, ih, sha256Round_length]

theorem addWords_length (xs ys : List Nat) :
    (addWords xs ys).length = min xs.length ys.length := by
  simp [addWords]

theorem sha256Block_length (hs b : List Nat) (h : hs.length = 8) :
    (sha256Block hs b).length = 8 := by
  simp [sha256Block, addWords_length, foldl_sha256Round_length, h]

theorem foldl_sha256Block_length (blocks : List (List Nat)) :
    ∀ hs : List Nat, hs.length = 8 → (blocks.foldl sha256Block hs).length = 8 := by
  induction blocks with
  | nil => intro hs h; exact h
  | cons b bs ih => intro hs h; rw [List.foldl_cons]; exact ih _ (sha256Block_length hs b h)

theorem flatMap_be32_length (l : List Nat) : (l.flatMap be32).length = 4 * l.length := by
  induction l with
  | nil => rfl
  | cons x xs ih => simp [be32, ih]; omega

/-- The digest of the embedded SHA-256 is always 32 bytes. -/
theorem sha256_length (msg : List Nat) : (sha256 msg).length = 32 := by
  unfold sha256
  have h8 : sha256H0.length = 8 := rfl
  rw [flatMap_be32_length, foldl_sha256Block_length _ _ h8]

theorem b32encode_length (bytes : List Nat) :
    (b32encode bytes).length = (8 * bytes.length + 4) / 5 := by
  simp [b32encode]

theorem b32alphabet_length : b32alphabet.length = 32 := rfl

theorem b32encode_mem (bytes : List Nat) : ∀ c ∈ b32encode bytes, c ∈ b32alphabet := by
  intro c hc
  simp only [b32encode, List.mem_map, List.mem_range] at hc
  obtain ⟨i, _, hc⟩ := hc
  have hlt : (((bytes.foldl (fun acc b => acc * 256 + b % 256) 0) <<<
      (5 * ((8 * bytes.length + 4) / 5) - 8 * bytes.length)) >>>
      (5 * ((8 * bytes.length + 4) / 5 - 1 - i))) % 32 < b32alphabet.length := by
    rw [b32alphabet_length]
    exact Nat.mod_lt _ (by norm_num)
  rw [← hc, List.getD_eq_getElem _ _ hlt]
  exact List.getElem_mem _

/-- Claim C2: for every input definition the identifier produced by
`inputHash` is exactly 8 characters, each drawn from the 32-symbol
lowercase-letters-and-digits alphabet that excludes the vowels o, a, e
and u, and it is the padding-free encoding of exactly the first 5 bytes
of the SHA-256 digest. -/
theorem c2_inputHash_encoding (inputs : InputDefinition) :
    (inputHash inputs).length = 8 ∧
    (∀ c ∈ (inputHash inputs).data, c ∈ b32alphabet) ∧
    inputHash inputs = String.mk (b32encode ((sha256 (inputs.flatMap strBytes)).take 5)) ∧
    b32alphabet.length = 32 ∧
    ('o' ∉ b32alphabet ∧ 'a' ∉ b32alphabet ∧ 'e' ∉ b32alphabet ∧ 'u' ∉ b32alphabet) ∧
    (∀ c ∈ b32alphabet, c.isLower = true ∨ c.isDigit = true) := by
  refine ⟨?_, ?_, rfl, rfl, by decide, by decide⟩
  · show (String.mk (b32encode ((sha256 (inputs.flatMap strBytes)).take 5))).length = 8
    have h5 : ((sha256 (inputs.flatMap strBytes)).take 5).length = 5 := by
      rw [List.length_take, sha256_length]
      decide
    simp [String.length, b32encode_length, h5]
  · intro c hc
    exact b32encode_mem _ c hc

/-- Claim C4: the workspace identifier is a pure function of the input
definition and the configuration bytes: equal input definitions and equal
configuration bytes yield equal identifiers. -/
theorem c4_inputHash_deterministic (inputs1 inputs2 : InputDefinition) (cfg1 cfg2 : String)
    (h1 : inputs1 = inputs2) (h2 : cfg1 = cfg2) :
    inputHash (inputs1 ++ [cfg1]) = inputHash (inputs2 ++ [cfg2]) := by
  rw [h1, h2]

theorem c4_witness :
    inputHash (["sourceSHA"] ++ ["cfg"]) = inputHash (["sourceSHA"] ++ ["cfg"]) :=
  c4_inputHash_deterministic ["sourceSHA"] ["sourceSHA"] "cfg" "cfg" rfl rfl

/-! ## The hash depends only on the concatenation of its inputs -/

theorem string_data_append (a b : String) : (a ++ b).data = a.data ++ b.data := by
  cases a; cases b; rfl

theorem foldl_append_data (xs : List String) :
    ∀ acc : String, (xs.foldl (· ++ ·) acc).data = acc.data ++ (xs.map String.data).flatten := by
  induction xs with
  | nil => intro acc; simp
  | cons x rest ih =>
    intro acc
    rw [List.foldl_cons, ih, string_data_append]
    simp

theorem join_data (xs : List String) : (String.join xs).data = (xs.map String.data).flatten := by
  show ((xs.foldl (· ++ ·) "").data = _)
  rw [foldl_append_data]
  rfl

theorem strBytes_join (xs : List String) : strBytes (String.join xs) = xs.flatMap strBytes := by
  unfold strBytes
  rw [join_data]
  induction xs with
  | nil => rfl
  | cons x rest ih => simp only [List.map_cons, List.flatten_cons, List.flatMap_cons,
      List.flatMap_append, ih]

/-- Claim C9: `inputHash` depends only on the character-wise concatenation
of the input definition, not on element boundaries. -/
theorem c9_inputHash_concat (xs ys : InputDefinition) (h : String.join xs = String.join ys) :
    inputHash xs = inputHash ys := by
  unfold inputHash
  have hb : xs.flatMap strBytes = ys.flatMap strBytes := by
    rw [← strBytes_join, ← strBytes_join, h]
  rw [hb]

theorem c9_witness : inputHash ["ab", "c"] = inputHash ["a", "bc"] :=
  c9_inputHash_concat ["ab", "c"] ["a", "bc"] (by decide)

/-- Claim C8: an error from the JUnit write never changes the result of
`Run`: the returned result is a function of the step-execution error and
the post-step errors alone, for any artifact directory, any suites and
any write outcome. -/
theorem c8_junit_error_does_not_fail (stepsErr : Option String) (a1 a2 : String)
    (sp1 sp2 : Bool) (j1 j2 : Option String) (postErrs : List (Option String)) :
    (runTail stepsErr a1 sp1 j1 postErrs).result = (runTail stepsErr a2 sp2 j2 postErrs).result ∧
    (runTail stepsErr a1 sp1 j1 postErrs).result =
      (match stepsErr with | some e => some e | none => firstErr postErrs) := by
  cases stepsErr <;> simp [runTail]

/-- Claim C10: in dry mode `initializeNamespace` returns success at once,
performs no cluster operation and leaves the cluster state unchanged. -/
theorem c10_dry_initializeNamespace (ns : String) (idle : Nat)
    (secretNames : List String) (st : ClusterState) :
    initializeNamespace true ns idle secretNames st = (.ok st, []) := rfl

/-! ## Known-answer sanity checks for the SHA-256 embedding -/

theorem sha256_empty_vector :
    sha256 [] = [0xe3, 0xb0, 0xc4, 0x42, 0x98, 0xfc, 0x1c, 0x14, 0x9a, 0xfb, 0xf4, 0xc8,
      0x99, 0x6f, 0xb9, 0x24, 0x27, 0xae, 0x41, 0xe4, 0x64, 0x9b, 0x93, 0x4c,
      0xa4, 0x95, 0x99, 0x1b, 0x78, 0x52, 0xb8, 0x55] := by decide

theorem sha256_abc_vector :
    sha256 [0x61, 0x62, 0x63] = [0xba, 0x78, 0x16, 0xbf, 0x8f, 0x01, 0xcf, 0xea, 0x41, 0x41,
      0x40, 0xde, 0x5d, 0xae, 0x22, 0x23, 0xb0, 0x03, 0x61, 0xa3, 0x96, 0x17,
      0x7a, 0x9c, 0xb4, 0x10, 0xff, 0x61, 0xf2, 0x00, 0x15, 0xad] := by decide

/-! ## Claim C3: the shape of the final input definition -/

theorem collectInputs_ok (steps : List Step)
    (h : ∀ s ∈ steps, ∃ d, s.inputs = .ok d) :
    collectInputs steps = .ok (steps.flatMap inputsOf) := by
  induction steps with
  | nil => rfl
  | cons s rest ih =>
    obtain ⟨d, hd⟩ := h s (List.mem_cons_self s rest)
    have hrest := ih (fun t ht => h t (List.mem_cons_of_mem _ ht))
    simp [collectInputs, hd, hrest, inputsOf]

/-- Claim C3: `resolveInputs` concatenates each step's inputs in step
order and appends exactly one element, the serialized configuration, as
the last element; the workspace identifier is the hash of that list. -/
theorem c3_resolveInputs_structure (steps : List Step) (cfg nsT : String)
    (h : ∀ s ∈ steps, ∃ d, s.inputs = .ok d) :
    resolveInputs steps cfg nsT =
      .ok { hash := inputHash (steps.flatMap inputsOf ++ [cfg]),
            ns := applyNamespaceTemplate nsT (inputHash (steps.flatMap inputsOf ++ [cfg])) } := by
  simp [resolveInputs, collectInputs_ok steps h]

theorem c3_witness :
    resolveInputs [w3srcStep, w3imgStep] "cfgbytes" "" =
      .ok { hash := inputHash ([w3srcStep, w3imgStep].flatMap inputsOf ++ ["cfgbytes"]),
            ns := applyNamespaceTemplate ""
              (inputHash ([w3srcStep, w3imgStep].flatMap inputsOf ++ ["cfgbytes"])) } :=
  c3_resolveInputs_structure [w3srcStep, w3imgStep] "cfgbytes" "" (by
    intro s hs
    simp only [List.mem_cons, List.not_mem_nil, or_false] at hs
    rcases hs with rfl | rfl
    · exact ⟨["sha1"], rfl⟩
    · exact ⟨["tagA", "tagB"], rfl⟩)

/-! ## Claim C7: the namespace template -/

theorem replaceAllF_no_occurrence (pat rep : List Char) :
    ∀ (fuel : Nat) (s : List Char), containsPat pat s = false →
      replaceAllF pat rep fuel s = s := by
  intro fuel
  induction fuel with
  | zero => intro s _; cases s <;> rfl
  | succ fuel ih =>
    intro s hs
    cases s with
    | nil => rfl
    | cons c rest =>
      simp only [containsPat, Bool.or_eq_false_iff] at hs
      rw [replaceAllF, if_neg (by simp [hs.1]), ih rest hs.2]

theorem replaceAll_no_occurrence (pat rep s : List Char)
    (h : containsPat pat s = false) : replaceAll pat rep s = s :=
  replaceAllF_no_occurrence pat rep s.length s h

theorem splitOnPatF_ne_nil (pat : List Char) :
    ∀ (fuel : Nat) (s : List Char), splitOnPatF pat fuel s ≠ [] := by
  intro fuel
  cases fuel with
  | zero => intro s; simp [splitOnPatF]
  | succ fuel =>
    intro s
    cases s with
    | nil => simp [splitOnPatF]
    | cons c rest =>
      rw [splitOnPatF]
      split
      · simp
      · split <;> simp

theorem replaceAllF_eq_joinWith_split (pat rep : List Char) :
    ∀ (fuel : Nat) (s : List Char),
      replaceAllF pat rep fuel s = joinWith rep (splitOnPatF pat fuel s) := by
  intro fuel
  induction fuel with
  | zero => intro s; cases s <;> rfl
  | succ fuel ih =>
    intro s
    cases s with
    | nil => rfl
    | cons c rest =>
      rw [replaceAllF, splitOnPatF]
      by_cases hc : pat ≠ [] ∧ pat.isPrefixOf (c :: rest) = true
      · rw [if_pos hc, if_pos hc, ih]
        cases hsp : splitOnPatF pat fuel ((c :: rest).drop pat.length) with
        | nil => exact absurd hsp (splitOnPatF_ne_nil pat fuel _)
        | cons g gs => rfl
      · rw [if_neg hc, if_neg hc, ih]
        cases hsp : splitOnPatF pat fuel rest with
        | nil => exact absurd hsp (splitOnPatF_ne_nil pat fuel rest)
        | cons g gs =>
          cases gs with
          | nil => rfl
          | cons g2 gs2 => rfl

/-- `strings.Replace(s, pat, rep, -1)` realizes the specification reading
"every occurrence is replaced": split on the pattern and rejoin. -/
theorem replaceAll_eq_specSubstitute (pat rep s : List Char) :
    replaceAll pat rep s = specSubstitute pat rep s :=
  replaceAllF_eq_joinWith_split pat rep s.length s

theorem string_mk_append (a : String) (l : List Char) :
    String.mk (a.data ++ l) = a ++ String.mk l := by
  cases a
  rfl

theorem string_mk_data (s : String) : String.mk s.data = s := by
  cases s
  rfl

theorem string_length_zero {s : String} (h : s.length = 0) : s = "" := by
  cases s with
  | mk d =>
    have hd : d = [] := by simpa [String.length] using h
    subst hd
    rfl

theorem applyNamespaceTemplate_eq_spec (nsT h : String) :
    applyNamespaceTemplate nsT h =
      String.mk (specSubstitute "{id}".data h.data
        (if nsT.length = 0 then "ci-op-{id}" else nsT).data) := by
  unfold applyNamespaceTemplate replaceAllStr
  rw [replaceAll_eq_specSubstitute]

/-- Claim C7: the namespace is the caller template with every occurrence
of the placeholder replaced by the input hash; a template without the
placeholder is used verbatim; an absent template defaults to the prefix
`"ci-op-"` followed by the hash. -/
theorem c7_namespace_template (nsT h : String) :
    (nsT = "" → applyNamespaceTemplate nsT h = "ci-op-" ++ h) ∧
    (nsT ≠ "" → containsPat "{id}".data nsT.data = false →
      applyNamespaceTemplate nsT h = nsT) ∧
    applyNamespaceTemplate nsT h =
      String.mk (specSubstitute "{id}".data h.data
        (if nsT.length = 0 then "ci-op-{id}" else nsT).data) := by
  refine ⟨?_, ?_, applyNamespaceTemplate_eq_spec nsT h⟩
  · intro he
    subst he
    rw [applyNamespaceTemplate_eq_spec]
    have hsplit : splitOnPat "{id}".data "ci-op-{id}".data = ["ci-op-".data, []] := by decide
    show String.mk (joinWith h.data (splitOnPat "{id}".data "ci-op-{id}".data)) = _
    rw [hsplit]
    show String.mk ("ci-op-".data ++ h.data ++ []) = "ci-op-" ++ h
    rw [List.append_nil, string_mk_append, string_mk_data]
  · intro hne hnc
    unfold applyNamespaceTemplate replaceAllStr
    rw [if_neg (fun h0 => hne (string_length_zero h0))]
    rw [replaceAll_no_occurrence _ _ _ hnc]

theorem c7_witness :
    applyNamespaceTemplate "" "q2" = "ci-op-" ++ "q2" ∧
    applyNamespaceTemplate "team-ns" "q2" = "team-ns" ∧
    applyNamespaceTemplate "x{id}y{id}" "q2" =
      String.mk (specSubstitute "{id}".data "q2".data
        (if ("x{id}y{id}" : String).length = 0 then "ci-op-{id}" else "x{id}y{id}").data) :=
  ⟨(c7_namespace_template "" "q2").1 rfl,
   (c7_namespace_template "team-ns" "q2").2.1 (by decide) (by decide),
   (c7_namespace_template "x{id}y{id}" "q2").2.2⟩

/-! ## Claim C1: which steps the input resolution queries -/

/-- Claim C1 counterexample: with the world `[a, b]` of two independent
steps and the target list `["a"]`, the pruned graph is `[a]`, yet the
workspace identifier computed by `Run` hashes the inputs of both `a` and
`b`; it differs from the hash of the pruned closure's input definition.
So the input definition is derived from the unpruned world, not from the
pruned graph as the claim states. -/
theorem c1_counterexample :
    buildPartialGraph [c1stepA, c1stepB] ["a"] = .ok [c1stepA] ∧
    (runUpToGraph [c1stepA, c1stepB] ["a"] "cfg" "").map (fun p => p.1.hash) =
      .ok (inputHash (["inA", "inB"] ++ ["cfg"])) ∧
    [c1stepA].flatMap inputsOf ++ ["cfg"] = ["inA", "cfg"] ∧
    inputHash (["inA", "inB"] ++ ["cfg"]) ≠ inputHash ["inA", "cfg"] := by
  exact ⟨by decide, by decide, by decide, by decide⟩

/-- Claim C1 (amended): before any pruning, `Run` resolves inputs over
the full unpruned world: for every world, target list and configuration,
the workspace identifier is the hash of the concatenated inputs of all
steps of the world plus the serialized configuration, regardless of the
targets. -/
theorem c1_amended_resolution_on_world (world : List Step) (targets : List String)
    (cfg nsT : String) (flat : InputDefinition) (pruned : List Step)
    (hc : collectInputs world = .ok flat)
    (hp : buildPartialGraph world targets = .ok pruned) :
    runUpToGraph world targets cfg nsT =
      .ok ({ hash := inputHash (flat ++ [cfg]),
             ns := applyNamespaceTemplate nsT (inputHash (flat ++ [cfg])) }, pruned) := by
  simp [runUpToGraph, resolveInputs, hc, hp]

theorem c1_amended_witness :
    runUpToGraph [c1stepA, c1stepB] ["a"] "cfg" "" =
      .ok ({ hash := inputHash (["inA", "inB"] ++ ["cfg"]),
             ns := applyNamespaceTemplate "" (inputHash (["inA", "inB"] ++ ["cfg"])) },
           [c1stepA]) :=
  c1_amended_resolution_on_world [c1stepA, c1stepB] ["a"] "cfg" "" ["inA", "inB"] [c1stepA]
    (by decide) (by decide)

/-! ## Claim C6: order of emission within a pass -/

theorem processNode_sorted_cases (st : SortState) (n : StepNode) :
    (processNode st n).sorted = st.sorted ∨ (processNode st n).sorted = st.sorted ++ [n] := by
  unfold processNode
  split_ifs <;> simp

/-- Claim C6 counterexample: with the worklist `[b, a]` both nodes are
unseen and ready in the first pass (no requires), yet `topologicalSort`
emits them as `[b, a]` — worklist order — while their stable name order is
`[a, b]`; the logged sequence of names is not sorted. -/
theorem c6_counterexample :
    (topologicalSort [cx6b, cx6a]).map (fun l => l.map (fun n => n.step.name)) =
      .ok ["b", "a"] ∧
    HasAllLinks cx6b.step.requires [] = true ∧
    HasAllLinks cx6a.step.requires [] = true ∧
    cx6a.step.name.data = ['a'] ∧ cx6b.step.name.data = ['b'] ∧ ('a' : Char) < 'b' ∧
    (["b", "a"] : List String) ≠ ["a", "b"] := by
  exact ⟨rfl, rfl, rfl, rfl, rfl, by decide, by decide⟩

/-- Claim C6 (amended): within each pass the nodes are examined in
worklist order and a node is emitted at the moment it is examined (when
unseen and currently satisfied, with the satisfied set growing during the
pass); hence the nodes a pass emits form a sublist of its worklist, in
worklist order — not in sorted-by-name order — and the logged execution
order is a deterministic function of the worklist. -/
theorem c6_amended_pass_emits_in_worklist_order (st : SortState) (nodes : List StepNode) :
    ∃ emitted, (nodes.foldl processNode st).sorted = st.sorted ++ emitted ∧
      emitted.Sublist nodes := by
  induction nodes generalizing st with
  | nil => exact ⟨[], by simp, List.nil_sublist []⟩
  | cons n rest ih =>
    obtain ⟨em, hem, hsub⟩ := ih (processNode st n)
    rw [List.foldl_cons] at *
    rcases processNode_sorted_cases st n with hcase | hcase
    · exact ⟨em, by rw [hem, hcase], hsub.cons n⟩
    · refine ⟨n :: em, ?_, hsub.cons₂ n⟩
      rw [hem, hcase]
      simp

/-! ## Claim C5: facts about `HasAllLinks` and single steps of a pass -/

theorem HasAllLinks_iff (r sat : List StepLink) :
    HasAllLinks r sat = true ↔ ∀ l ∈ r, l ∈ sat := by
  simp [HasAllLinks, List.all_eq_true, List.any_eq_true]

theorem HasAllLinks_mono (r sat d : List StepLink) (h : HasAllLinks r sat = true) :
    HasAllLinks r (sat ++ d) = true := by
  rw [HasAllLinks_iff] at h ⊢
  exact fun l hl => List.mem_append_left d (h l hl)

theorem processNode_seen_cases (st : SortState) (n : StepNode) :
    (processNode st n).seen = st.seen ∨ (processNode st n).seen = st.seen ++ [n.step] := by
  unfold processNode
  split_ifs <;> simp

theorem processNode_satisfied_cases (st : SortState) (n : StepNode) :
    (processNode st n).satisfied = st.satisfied ∨
      (processNode st n).satisfied = st.satisfied ++ n.step.creates := by
  unfold processNode
  split_ifs <;> simp

theorem processNode_waiting_extend (st : SortState) (n : StepNode) :
    ∃ d, (processNode st n).waiting = st.waiting ++ d := by
  unfold processNode
  split_ifs
  · exact ⟨_, rfl⟩
  · exact ⟨_, rfl⟩
  · exact ⟨_, List.append_assoc _ _ _⟩

theorem processNode_changed_false (st : SortState) (n : StepNode)
    (h : (processNode st n).changed = false) :
    st.changed = false ∧ (processNode st n).seen = st.seen ∧
    (processNode st n).satisfied = st.satisfied ∧ (processNode st n).sorted = st.sorted := by
  unfold processNode at h ⊢
  split_ifs at h ⊢
  · exact ⟨h, rfl, rfl, rfl⟩
  · exact ⟨h, rfl, rfl, rfl⟩

theorem foldl_seen_extend (nodes : List StepNode) :
    ∀ st : SortState, ∃ d, (nodes.foldl processNode st).seen = st.seen ++ d := by
  induction nodes with
  | nil => intro st; exact ⟨[], by simp⟩
  | cons n rest ih =>
    intro st
    obtain ⟨d1, h1⟩ := ih (processNode st n)
    rw [List.foldl_cons]
    rcases processNode_seen_cases st n with h0 | h0
    · exact ⟨d1, by rw [h1, h0]⟩
    · exact ⟨[n.step] ++ d1, by rw [h1, h0, List.append_assoc]⟩

theorem foldl_satisfied_extend (nodes : List StepNode) :
    ∀ st : SortState, ∃ d, (nodes.foldl processNode st).satisfied = st.satisfied ++ d := by
  induction nodes with
  | nil => intro st; exact ⟨[], by simp⟩
  | cons n rest ih =>
    intro st
    obtain ⟨d1, h1⟩ := ih (processNode st n)
    rw [List.foldl_cons]
    rcases processNode_satisfied_cases st n with h0 | h0
    · exact ⟨d1, by rw [h1, h0]⟩
    · exact ⟨n.step.creates ++ d1, by rw [h1, h0, List.append_assoc]⟩

theorem foldl_waiting_extend (nodes : List StepNode) :
    ∀ st : SortState, ∃ d, (nodes.foldl processNode st).waiting = st.waiting ++ d := by
  induction nodes with
  | nil => intro st; exact ⟨[], by simp⟩
  | cons n rest ih =>
    intro st
    obtain ⟨d1, h1⟩ := ih (processNode st n)
    obtain ⟨d0, h0⟩ := processNode_waiting_extend st n
    rw [List.foldl_cons]
    exact ⟨d0 ++ d1, by rw [h1, h0, List.append_assoc]⟩

theorem foldl_seen_mono (nodes : List StepNode) (st : SortState) {s : Step}
    (h : s ∈ st.seen) : s ∈ (nodes.foldl processNode st).seen := by
  obtain ⟨d, hd⟩ := foldl_seen_extend nodes st
  rw [hd]
  exact List.mem_append_left d h

theorem foldl_changed_false (nodes : List StepNode) :
    ∀ st : SortState, (nodes.foldl processNode st).changed = false →
      st.changed = false ∧ (nodes.foldl processNode st).seen = st.seen ∧
      (nodes.foldl processNode st).satisfied = st.satisfied ∧
      (nodes.foldl processNode st).sorted = st.sorted := by
  induction nodes with
  | nil => intro st h; exact ⟨h, rfl, rfl, rfl⟩
  | cons n rest ih =>
    intro st h
    rw [List.foldl_cons] at h ⊢
    obtain ⟨h1, h2, h3, h4⟩ := ih _ h
    obtain ⟨hb, hs, hsat, hso⟩ := processNode_changed_false st n h1
    exact ⟨hb, by rw [h2, hs], by rw [h3, hsat], by rw [h4, hso]⟩

/-! ## Claim C5: what a pass does to individual nodes -/

theorem processNode_unemitted_waiting (st : SortState) (n : StepNode)
    (h : n.step ∉ (processNode st n).seen) : n ∈ (processNode st n).waiting := by
  unfold processNode at h ⊢
  split_ifs at h ⊢ with h1 h2
  · exact absurd h1 h
  · exact absurd (List.mem_append_right st.seen (by simp)) h
  · simp

theorem foldl_unemitted_waiting (nodes : List StepNode) :
    ∀ (st : SortState) (n : StepNode), n ∈ nodes →
      n.step ∉ (nodes.foldl processNode st).seen →
      n ∈ (nodes.foldl processNode st).waiting := by
  induction nodes with
  | nil => intro st n h; cases h
  | cons m rest ih =>
    intro st n hmem hns
    rw [List.foldl_cons] at hns ⊢
    rcases List.mem_cons.mp hmem with rfl | hmem2
    · have h1 : n.step ∉ (processNode st n).seen := by
        intro hc
        exact hns (foldl_seen_mono rest _ hc)
      obtain ⟨d, hd⟩ := foldl_waiting_extend rest (processNode st n)
      rw [hd]
      exact List.mem_append_left d (processNode_unemitted_waiting st n h1)
    · exact ih _ n hmem2 hns

theorem processNode_child_waiting (st : SortState) (m c : StepNode)
    (hc : c ∈ m.children) (hcs : c.step ∉ st.seen) : c ∈ (processNode st m).waiting := by
  have hmemf : c ∈ m.children.filter (fun x => decide (x.step ∉ st.seen)) := by
    rw [List.mem_filter]
    exact ⟨hc, by simpa using hcs⟩
  unfold processNode
  split_ifs
  · exact List.mem_append_right st.waiting hmemf
  · exact List.mem_append_right st.waiting hmemf
  · exact List.mem_append_left _ (List.mem_append_right st.waiting hmemf)

theorem foldl_child_waiting (nodes : List StepNode) :
    ∀ (st : SortState) (m c : StepNode), m ∈ nodes → c ∈ m.children →
      c.step ∉ (nodes.foldl processNode st).seen →
      c ∈ (nodes.foldl processNode st).waiting := by
  induction nodes with
  | nil => intro st m c h; cases h
  | cons m0 rest ih =>
    intro st m c hm hc hcs
    rw [List.foldl_cons] at hcs ⊢
    rcases List.mem_cons.mp hm with rfl | hm2
    · have hcs0 : c.step ∉ st.seen := by
        intro hx
        rcases processNode_seen_cases st m with h0 | h0
        · exact hcs (foldl_seen_mono rest _ (by rw [h0]; exact hx))
        · exact hcs (foldl_seen_mono rest _ (by rw [h0]; exact List.mem_append_left _ hx))
      obtain ⟨d, hd⟩ := foldl_waiting_extend rest (processNode st m)
      rw [hd]
      exact List.mem_append_left d (processNode_child_waiting st m c hc hcs0)
    · exact ih _ m c hm2 hc hcs

theorem processNode_seen_src (st : SortState) (n : StepNode) {s : Step}
    (h : s ∈ (processNode st n).seen) : s ∈ st.seen ∨ s = n.step := by
  rcases processNode_seen_cases st n with h0 | h0 <;> rw [h0] at h
  · exact .inl h
  · rcases List.mem_append.mp h with h1 | h1
    · exact .inl h1
    · exact .inr (by simpa using h1)

theorem foldl_seen_src (nodes : List StepNode) :
    ∀ (st : SortState) (s : Step), s ∈ (nodes.foldl processNode st).seen →
      s ∈ st.seen ∨ ∃ n ∈ nodes, n.step = s := by
  induction nodes with
  | nil => intro st s h; exact .inl h
  | cons m rest ih =>
    intro st s h
    rw [List.foldl_cons] at h
    rcases ih _ s h with h1 | ⟨n, hn, hns⟩
    · rcases processNode_seen_src st m h1 with h2 | h2
      · exact .inl h2
      · exact .inr ⟨m, List.mem_cons_self m rest, h2.symm⟩
    · exact .inr ⟨n, List.mem_cons_of_mem m hn, hns⟩

theorem foldl_ready_seen (nodes : List StepNode) :
    ∀ (st : SortState) (n : StepNode), n ∈ nodes →
      HasAllLinks n.step.requires st.satisfied = true →
      n.step ∈ (nodes.foldl processNode st).seen := by
  induction nodes with
  | nil => intro st n h; cases h
  | cons m rest ih =>
    intro st n hmem hready
    rw [List.foldl_cons]
    rcases List.mem_cons.mp hmem with rfl | hm2
    · have hpn : n.step ∈ (processNode st n).seen := by
        by_cases hA : n.step ∈ st.seen
        · rcases processNode_seen_cases st n with h0 | h0 <;> rw [h0]
          · exact hA
          · exact List.mem_append_left _ hA
        · unfold processNode
          rw [if_neg hA, if_pos hready]
          exact List.mem_append_right st.seen (by simp)
      exact foldl_seen_mono rest _ hpn
    · rcases processNode_satisfied_cases st m with h0 | h0
      · exact ih _ n hm2 (by rw [h0]; exact hready)
      · exact ih _ n hm2 (by rw [h0]; exact HasAllLinks_mono _ _ _ hready)

/-! ## Claim C5: invariant preservation through a pass -/

theorem linearizedFrom_append (l : List StepNode) (n : StepNode) :
    ∀ sat, linearizedFrom sat (l ++ [n]) =
      (linearizedFrom sat l &&
        HasAllLinks n.step.requires (sat ++ l.flatMap (fun m => m.step.creates))) := by
  induction l with
  | nil => intro sat; simp [linearizedFrom]
  | cons m rest ih =>
    intro sat
    simp only [List.cons_append, linearizedFrom, List.append_eq]
    rw [ih]
    simp only [List.flatMap_cons, List.append_assoc, Bool.and_assoc]

theorem processNode_inv (R : List StepNode) (st : SortState) (n : StepNode)
    (hreach : Reaches R n) (hinv : StInv R st) : StInv R (processNode st n) := by
  obtain ⟨⟨hseen, hsat, hlin, hnodup, hsorted⟩, hwait⟩ := hinv
  have hchild : ∀ c ∈ n.children.filter (fun c => decide (c.step ∉ st.seen)), Reaches R c :=
    fun c hc => Reaches.child hreach (List.mem_filter.mp hc).1
  unfold processNode
  split_ifs with h1 h2
  · refine ⟨⟨hseen, hsat, hlin, hnodup, hsorted⟩, ?_⟩
    intro c hc
    rcases List.mem_append.mp hc with h | h
    · exact hwait c h
    · exact hchild c h
  · refine ⟨⟨?_, ?_, ?_, ?_, ?_⟩, ?_⟩
    · show st.seen ++ [n.step] = (st.sorted ++ [n]).map StepNode.step
      rw [List.map_append, hseen]
      rfl
    · show st.satisfied ++ n.step.creates = (st.sorted ++ [n]).flatMap (fun m => m.step.creates)
      rw [List.flatMap_append, hsat]
      simp
    · show linearizedFrom [] (st.sorted ++ [n]) = true
      rw [linearizedFrom_append, hlin, Bool.true_and, List.nil_append, ← hsat]
      exact h2
    · show ((st.sorted ++ [n]).map StepNode.step).Nodup
      rw [List.map_append]
      apply List.Nodup.append hnodup (List.nodup_singleton _)
      intro a ha hb
      rw [List.mem_singleton] at hb
      subst hb
      exact h1 (by rw [hseen]; exact ha)
    · intro m hm
      rcases List.mem_append.mp hm with h | h
      · exact hsorted m h
      · have : m = n := by simpa using h
        subst this
        exact hreach
    · intro c hc
      rcases List.mem_append.mp hc with h | h
      · exact hwait c h
      · exact hchild c h
  · refine ⟨⟨hseen, hsat, hlin, hnodup, hsorted⟩, ?_⟩
    intro c hc
    rcases List.mem_append.mp hc with h | h
    · rcases List.mem_append.mp h with h0 | h0
      · exact hwait c h0
      · exact hchild c h0
    · have : c = n := by simpa using h
      subst this
      exact hreach

theorem foldl_inv (R : List StepNode) (nodes : List StepNode) :
    ∀ st : SortState, (∀ n ∈ nodes, Reaches R n) → StInv R st →
      StInv R (nodes.foldl processNode st) := by
  induction nodes with
  | nil => intro st _ h; exact h
  | cons n rest ih =>
    intro st hn hinv
    rw [List.foldl_cons]
    exact ih _ (fun m hm => hn m (List.mem_cons_of_mem n hm))
      (processNode_inv R st n (hn n (List.mem_cons_self n rest)) hinv)

theorem sortPass_vinv (R : List StepNode) (nodes : List StepNode) (seen : List Step)
    (sat : List StepLink) (sorted : List StepNode)
    (hwf : WellFormedGraph R) (hnodes : ∀ n ∈ nodes, Reaches R n)
    (hV : Vinv R nodes seen) :
    Vinv R (sortPass nodes seen sat sorted).waiting (sortPass nodes seen sat sorted).seen := by
  unfold sortPass
  intro n hreach hnseen hcond
  have hseen0 : n.step ∉ seen := fun hx =>
    hnseen (foldl_seen_mono nodes _ hx)
  rcases hcond with hroot | ⟨m, hm, hcm, hmseen⟩
  · exact foldl_unemitted_waiting nodes _ n (hV n hreach hseen0 (.inl hroot)) hnseen
  · by_cases hm0 : m.step ∈ seen
    · exact foldl_unemitted_waiting nodes _ n
        (hV n hreach hseen0 (.inr ⟨m, hm, hcm, hm0⟩)) hnseen
    · rcases foldl_seen_src nodes _ m.step hmseen with h1 | ⟨nd, hnd, hnds⟩
      · exact absurd h1 hm0
      · have heq : nd = m := hwf nd m (hnodes nd hnd) hm hnds
        exact foldl_child_waiting nodes _ nd n hnd (by rw [heq]; exact hcm) hnseen

/-! ## Claim C5: reachable nodes and the steps of the forest -/

theorem mem_forestSteps (cs : List StepNode) (s : Step) :
    s ∈ forestSteps cs ↔ ∃ c ∈ cs, s ∈ nodeSteps c := by
  induction cs with
  | nil => simp [forestSteps]
  | cons c rest ih => simp [forestSteps, List.mem_append, ih]

theorem nodeSteps_sub_forest (cs : List StepNode) (c : StepNode) (hc : c ∈ cs) :
    ∀ s ∈ nodeSteps c, s ∈ forestSteps cs :=
  fun s hs => (mem_forestSteps cs s).mpr ⟨c, hc, hs⟩

theorem reaches_nodeSteps_sub (R : List StepNode) :
    ∀ n, Reaches R n → ∀ s ∈ nodeSteps n, s ∈ forestSteps R := by
  intro n h
  induction h with
  | root hmem => exact nodeSteps_sub_forest R _ hmem
  | @child m c hm hc ih =>
    intro s hs
    apply ih
    cases m with
    | mk ms mcs =>
      exact List.mem_cons_of_mem ms (nodeSteps_sub_forest mcs c hc s hs)

theorem reaches_step_mem (R : List StepNode) (n : StepNode) (h : Reaches R n) :
    n.step ∈ forestSteps R := by
  apply reaches_nodeSteps_sub R n h
  cases n with
  | mk s cs => exact List.mem_cons_self s (forestSteps cs)

theorem nodeSteps_reaches_aux :
    ∀ (k : Nat) (n : StepNode), sizeOf n ≤ k →
      ∀ (R : List StepNode), Reaches R n →
        ∀ s ∈ nodeSteps n, ∃ m, Reaches R m ∧ m.step = s := by
  intro k
  induction k with
  | zero =>
    intro n hsz
    exfalso
    cases n with
    | mk st cs => simp [StepNode.mk.sizeOf_spec] at hsz
  | succ k ih =>
    intro n hsz R hreach s hs
    cases n with
    | mk stp cs =>
      rcases List.mem_cons.mp hs with rfl | hs2
      · exact ⟨StepNode.mk s cs, hreach, rfl⟩
      · obtain ⟨c, hc, hsc⟩ := (mem_forestSteps cs s).mp hs2
        have hszc : sizeOf c ≤ k := by
          have h1 : sizeOf c < sizeOf cs := List.sizeOf_lt_of_mem hc
          have h2 : sizeOf (StepNode.mk stp cs) = 1 + sizeOf stp + sizeOf cs := by
            simp [StepNode.mk.sizeOf_spec]
          omega
        exact ih c hszc R (Reaches.child hreach hc) s hsc

theorem forestSteps_reaches (R : List StepNode) (s : Step) (h : s ∈ forestSteps R) :
    ∃ n, Reaches R n ∧ n.step = s := by
  obtain ⟨c, hc, hsc⟩ := (mem_forestSteps R s).mp h
  exact nodeSteps_reaches_aux (sizeOf c) c le_rfl R (Reaches.root hc) s hsc

/-! ## Claim C5: lists have rank-maximal elements; filters shrink -/

theorem list_exists_max {α : Type} (f : α → Nat) :
    ∀ l : List α, l ≠ [] → ∃ u ∈ l, ∀ v ∈ l, f v ≤ f u := by
  intro l
  induction l with
  | nil => intro h; exact absurd rfl h
  | cons a rest ih =>
    intro _
    by_cases hr : rest = []
    · subst hr
      exact ⟨a, by simp, by simp⟩
    · obtain ⟨u, hu, hmax⟩ := ih hr
      by_cases hcmp : f a ≤ f u
      · refine ⟨u, List.mem_cons_of_mem a hu, ?_⟩
        intro v hv
        rcases List.mem_cons.mp hv with rfl | hv2
        · exact hcmp
        · exact hmax v hv2
      · refine ⟨a, List.mem_cons_self a rest, ?_⟩
        intro v hv
        rcases List.mem_cons.mp hv with rfl | hv2
        · exact le_refl _
        · exact le_trans (hmax v hv2) (le_of_not_le hcmp)

theorem filter_length_le_mono {α : Type} (p q : α → Bool) :
    ∀ l : List α, (∀ x ∈ l, q x = true → p x = true) →
      (l.filter q).length ≤ (l.filter p).length := by
  intro l
  induction l with
  | nil => intro _; simp
  | cons a rest ih =>
    intro h
    have hr := ih (fun x hx => h x (List.mem_cons_of_mem a hx))
    by_cases hq : q a = true
    · rw [List.filter_cons_of_pos hq, List.filter_cons_of_pos (h a (List.mem_cons_self a rest) hq)]
      simpa using hr
    · rw [List.filter_cons_of_neg (by simpa using hq)]
      by_cases hp : p a = true
      · rw [List.filter_cons_of_pos hp]
        exact le_trans hr (Nat.le_succ _)
      · rw [List.filter_cons_of_neg (by simpa using hp)]
        exact hr

theorem filter_length_lt {α : Type} (p q : α → Bool) (u : α)
    (hpu : p u = true) (hqu : q u = false) :
    ∀ l : List α, (∀ x ∈ l, q x = true → p x = true) → u ∈ l →
      (l.filter q).length < (l.filter p).length := by
  intro l
  induction l with
  | nil => intro _ hu; cases hu
  | cons a rest ih =>
    intro hmono hu
    have hmr : ∀ x ∈ rest, q x = true → p x = true :=
      fun x hx => hmono x (List.mem_cons_of_mem a hx)
    rcases List.mem_cons.mp hu with rfl | hu2
    · rw [List.filter_cons_of_neg (by simp [hqu]), List.filter_cons_of_pos hpu]
      exact Nat.lt_succ_of_le (filter_length_le_mono p q rest hmr)
    · by_cases hqa : q a = true
      · rw [List.filter_cons_of_pos hqa, List.filter_cons_of_pos (hmono a (List.mem_cons_self a rest) hqa)]
        simpa using ih hmr hu2
      · rw [List.filter_cons_of_neg (by simpa using hqa)]
        by_cases hpa : p a = true
        · rw [List.filter_cons_of_pos hpa]
          exact Nat.lt_succ_of_lt (ih hmr hu2)
        · rw [List.filter_cons_of_neg (by simpa using hpa)]
          exact ih hmr hu2

/-! ## Claim C5: a stuck pass is impossible while unseen reachable steps remain -/

theorem tsort_exists_ready (R : List StepNode) (rank : Step → Nat)
    (hrank : ∀ n, Reaches R n → ∀ c ∈ n.children, rank c.step < rank n.step)
    (hwire : ParentWired R)
    (nodes : List StepNode) (seen : List Step) (satisfied : List StepLink)
    (sorted : List StepNode)
    (hSI : SortInv R seen satisfied sorted) (hV : Vinv R nodes seen)
    (u0 : Step) (hu0f : u0 ∈ forestSteps R) (hu0s : u0 ∉ seen) :
    ∃ n, n ∈ nodes ∧ n.step ∉ seen ∧ HasAllLinks n.step.requires satisfied = true := by
  obtain ⟨hseen, hsat, _, _, _⟩ := hSI
  have hne : (forestSteps R).filter (fun s => decide (s ∉ seen)) ≠ [] := by
    intro h
    have hmem : u0 ∈ (forestSteps R).filter (fun s => decide (s ∉ seen)) := by
      rw [List.mem_filter]
      exact ⟨hu0f, by simpa using hu0s⟩
    rw [h] at hmem
    cases hmem
  obtain ⟨u, hu, hmax⟩ := list_exists_max rank _ hne
  rw [List.mem_filter] at hu
  have huf : u ∈ forestSteps R := hu.1
  have hus : u ∉ seen := by simpa using hu.2
  obtain ⟨nstar, hnr, hns⟩ := forestSteps_reaches R u huf
  have hparents : ∀ m, Reaches R m → nstar ∈ m.children → m.step ∈ seen := by
    intro m hmr hmc
    by_contra hms
    have hmem : m.step ∈ (forestSteps R).filter (fun s => decide (s ∉ seen)) := by
      rw [List.mem_filter]
      exact ⟨reaches_step_mem R m hmr, by simpa using hms⟩
    have h1 : rank m.step ≤ rank u := hmax _ hmem
    have h2 : rank nstar.step < rank m.step := hrank m hmr nstar hmc
    rw [hns] at h2
    omega
  have hcond : nstar ∈ R ∨ ∃ m, Reaches R m ∧ nstar ∈ m.children ∧ m.step ∈ seen := by
    cases hnr with
    | root hmem => exact .inl hmem
    | @child m _ hm hc => exact .inr ⟨m, hm, hc, hparents m hm hc⟩
  have hnnodes : nstar ∈ nodes := hV nstar hnr (by rw [hns]; exact hus) hcond
  have hready : HasAllLinks nstar.step.requires satisfied = true := by
    rw [HasAllLinks_iff]
    intro l hl
    obtain ⟨m, hmr, hmc, hlc⟩ := hwire nstar hnr l hl
    have hmseen : m.step ∈ seen := hparents m hmr hmc
    rw [hseen] at hmseen
    obtain ⟨nd, hnd, hnds⟩ := List.mem_map.mp hmseen
    rw [hsat]
    exact List.mem_flatMap.mpr ⟨nd, hnd, by rw [hnds]; exact hlc⟩
  exact ⟨nstar, hnnodes, by rw [hns]; exact hus, hready⟩

/-! ## Claim C5: a pass over fully seen nodes is the identity -/

theorem foldl_allseen (nodes : List StepNode) :
    ∀ st : SortState, (∀ n ∈ nodes, n.step ∈ st.seen) →
      (∀ n ∈ nodes, ∀ c ∈ n.children, c.step ∈ st.seen) →
      nodes.foldl processNode st = st := by
  induction nodes with
  | nil => intro st _ _; rfl
  | cons n rest ih =>
    intro st h1 h2
    have hf : n.children.filter (fun c => decide (c.step ∉ st.seen)) = [] := by
      rw [List.filter_eq_nil]
      intro c hc
      simpa using h2 n (List.mem_cons_self n rest) c hc
    have hpn : processNode st n = st := by
      unfold processNode
      rw [if_pos (h1 n (List.mem_cons_self n rest)), hf, List.append_nil]
    rw [List.foldl_cons, hpn]
    exact ih st (fun m hm => h1 m (List.mem_cons_of_mem n hm))
      (fun m hm => h2 m (List.mem_cons_of_mem n hm))

theorem tsort_membership_of_allseen (R : List StepNode) (seen : List Step)
    (sat : List StepLink) (sorted : List StepNode) (hSI : SortInv R seen sat sorted)
    (hall : ∀ u ∈ forestSteps R, u ∈ seen) :
    ∀ s, s ∈ sorted.map StepNode.step ↔ ∃ n, Reaches R n ∧ n.step = s := by
  obtain ⟨hseen, _, _, _, hsorted⟩ := hSI
  intro s
  constructor
  · intro hs
    obtain ⟨nd, hnd, hnds⟩ := List.mem_map.mp hs
    exact ⟨nd, hsorted nd hnd, hnds⟩
  · rintro ⟨n, hn, rfl⟩
    rw [← hseen]
    exact hall _ (reaches_step_mem R n hn)

/-! ## Claim C5: the main loop succeeds under the builder wiring -/

theorem sortLoop_succ_nil (fuel : Nat) (seen : List Step) (sat : List StepLink)
    (sorted : List StepNode) : sortLoop (fuel + 1) [] seen sat sorted = .ok sorted := rfl

theorem sortLoop_succ_cons (fuel : Nat) (n0 : StepNode) (rest : List StepNode)
    (seen : List Step) (sat : List StepLink) (sorted : List StepNode) :
    sortLoop (fuel + 1) (n0 :: rest) seen sat sorted =
      (if (sortPass (n0 :: rest) seen sat sorted).changed = false ∧
          (sortPass (n0 :: rest) seen sat sorted).waiting.isEmpty = false then
        .error "steps are missing dependencies"
      else
        sortLoop fuel (sortPass (n0 :: rest) seen sat sorted).waiting
          (sortPass (n0 :: rest) seen sat sorted).seen
          (sortPass (n0 :: rest) seen sat sorted).satisfied
          (sortPass (n0 :: rest) seen sat sorted).sorted) := rfl

theorem tsort_loop_ok (R : List StepNode) (rank : Step → Nat)
    (hrank : ∀ n, Reaches R n → ∀ c ∈ n.children, rank c.step < rank n.step)
    (hwf : WellFormedGraph R) (hwire : ParentWired R) :
    ∀ (fuel : Nat) (nodes : List StepNode) (seen : List Step)
      (satisfied : List StepLink) (sorted : List StepNode),
      (∀ n ∈ nodes, Reaches R n) →
      SortInv R seen satisfied sorted →
      Vinv R nodes seen →
      ((forestSteps R).filter (fun s => decide (s ∉ seen))).length + 2 ≤ fuel →
      ∃ out, sortLoop fuel nodes seen satisfied sorted = .ok out ∧
        linearizedFrom [] out = true ∧
        (out.map StepNode.step).Nodup ∧
        (∀ s, s ∈ out.map StepNode.step ↔ ∃ n, Reaches R n ∧ n.step = s) := by
  intro fuel
  induction fuel with
  | zero => intro nodes seen sat sorted _ _ _ hfuel; omega
  | succ fuel ih =>
    intro nodes seen sat sorted hnodes hSI hV hfuel
    by_cases hall : ∀ u ∈ forestSteps R, u ∈ seen
    · have hnodesSeen : ∀ n ∈ nodes, n.step ∈ seen := fun n hn =>
        hall _ (reaches_step_mem R n (hnodes n hn))
      have hchildSeen : ∀ n ∈ nodes, ∀ c ∈ n.children, c.step ∈ seen := fun n hn c hc =>
        hall _ (reaches_step_mem R c (Reaches.child (hnodes n hn) hc))
      cases nodes with
      | nil =>
        exact ⟨sorted, sortLoop_succ_nil fuel seen sat sorted, hSI.2.2.1, hSI.2.2.2.1,
          tsort_membership_of_allseen R seen sat sorted hSI hall⟩
      | cons n0 rest =>
        have hpass : sortPass (n0 :: rest) seen sat sorted =
            { waiting := [], seen := seen, satisfied := sat, sorted := sorted,
              changed := false } := by
          unfold sortPass
          exact foldl_allseen (n0 :: rest) _ hnodesSeen hchildSeen
        obtain ⟨fuel2, rfl⟩ : ∃ f2, fuel = f2 + 1 := ⟨fuel - 1, by omega⟩
        refine ⟨sorted, ?_, hSI.2.2.1, hSI.2.2.2.1,
          tsort_membership_of_allseen R seen sat sorted hSI hall⟩
        rw [sortLoop_succ_cons, hpass]
        rw [if_neg (by simp)]
        exact sortLoop_succ_nil fuel2 seen sat sorted
    · push_neg at hall
      obtain ⟨u0, hu0f, hu0s⟩ := hall
      obtain ⟨nstar, hnN, hnS, hnReady⟩ :=
        tsort_exists_ready R rank hrank hwire nodes seen sat sorted hSI hV u0 hu0f hu0s
      cases nodes with
      | nil => cases hnN
      | cons n0 rest =>
        have hsp : sortPass (n0 :: rest) seen sat sorted =
            List.foldl processNode
              { waiting := [], seen := seen, satisfied := sat, sorted := sorted,
                changed := false } (n0 :: rest) := rfl
        have hseenF : nstar.step ∈ (sortPass (n0 :: rest) seen sat sorted).seen := by
          unfold sortPass
          exact foldl_ready_seen (n0 :: rest) _ nstar hnN hnReady
        have hchangedF : (sortPass (n0 :: rest) seen sat sorted).changed = true := by
          by_contra hc
          have hc2 : (sortPass (n0 :: rest) seen sat sorted).changed = false := by
            simpa using hc
          rw [hsp] at hc2 hseenF
          obtain ⟨_, hseenEq, _, _⟩ := foldl_changed_false (n0 :: rest) _ hc2
          rw [hseenEq] at hseenF
          exact hnS hseenF
        have hStInv : StInv R (sortPass (n0 :: rest) seen sat sorted) := by
          unfold sortPass
          refine foldl_inv R (n0 :: rest) _ hnodes ⟨hSI, ?_⟩
          intro n hn
          cases hn
        have hVF : Vinv R (sortPass (n0 :: rest) seen sat sorted).waiting
            (sortPass (n0 :: rest) seen sat sorted).seen :=
          sortPass_vinv R (n0 :: rest) seen sat sorted hwf hnodes hV
        have hseenSub : ∀ x : Step, x ∈ seen →
            x ∈ (sortPass (n0 :: rest) seen sat sorted).seen := by
          intro x hx
          unfold sortPass
          exact foldl_seen_mono (n0 :: rest) _ hx
        have hlt : ((forestSteps R).filter
              (fun s => decide (s ∉ (sortPass (n0 :: rest) seen sat sorted).seen))).length <
            ((forestSteps R).filter (fun s => decide (s ∉ seen))).length := by
          apply filter_length_lt (fun s => decide (s ∉ seen))
            (fun s => decide (s ∉ (sortPass (n0 :: rest) seen sat sorted).seen)) nstar.step
            (by simpa using hnS) (by simpa using hseenF) (forestSteps R)
          · intro x _ hx
            simp only [decide_eq_true_eq] at hx ⊢
            exact fun hxs => hx (hseenSub x hxs)
          · exact reaches_step_mem R nstar (hnodes nstar hnN)
        obtain ⟨out, hout, h2, h3, h4⟩ := ih (sortPass (n0 :: rest) seen sat sorted).waiting
          (sortPass (n0 :: rest) seen sat sorted).seen
          (sortPass (n0 :: rest) seen sat sorted).satisfied
          (sortPass (n0 :: rest) seen sat sorted).sorted
          hStInv.2 hStInv.1 hVF (by omega)
        refine ⟨out, ?_, h2, h3, h4⟩
        rw [sortLoop_succ_cons]
        rw [if_neg (fun hcon => by rw [hchangedF] at hcon; exact absurd hcon.1 (by simp))]
        exact hout

/-! ## Claim C5: counterexample, amended claim and witness -/

theorem cx5_reaches : ∀ n, Reaches [cx5root] n → n = cx5root ∨ n = cx5child := by
  intro n h
  induction h with
  | root hmem => exact .inl (by simpa using hmem)
  | @child m c hm hc ih =>
    rcases ih with rfl | rfl
    · right
      simpa [cx5root, StepNode.children] using hc
    · exfalso
      simpa [cx5child, StepNode.children] using hc

/-- Claim C5 counterexample: the one-root graph in which the root `a`
requires the link its own child `b` creates is acyclic along child edges
and every required link is producible by a node of the graph, yet the
very first pass emits nothing while nodes are waiting, so
`topologicalSort` fails instead of returning the valid linearization
`[b, a]`. -/
theorem c5_counterexample :
    AcyclicGraph [cx5root] ∧ ProducibleAll [cx5root] ∧
    topologicalSort [cx5root] = .error "steps are missing dependencies" := by
  refine ⟨⟨fun s => if s.name = "b" then 0 else 1, ?_⟩, ?_, rfl⟩
  · intro n hn c hc
    rcases cx5_reaches n hn with rfl | rfl
    · have hc2 : c = cx5child := by simpa [cx5root, StepNode.children] using hc
      subst hc2
      decide
    · exfalso
      simpa [cx5child, StepNode.children] using hc
  · intro n hn l hl
    rcases cx5_reaches n hn with rfl | rfl
    · have hl2 : l = fixLink := by
        simpa [cx5root, StepNode.step, cx5rootStep] using hl
      subst hl2
      have hrootR : Reaches [cx5root] cx5root := Reaches.root (by simp)
      have hchildR : Reaches [cx5root] cx5child := by
        apply Reaches.child hrootR
        simp [cx5root, StepNode.children]
      exact ⟨cx5child, hchildR, by decide⟩
    · exfalso
      simpa [cx5child, StepNode.step, cx5childStep] using hl

/-- Claim C5 (amended): for every acyclic graph of step nodes in which
each step is carried by a single node and every node's requires are links
created by its parents in the graph — the wiring the graph builder
produces — `topologicalSort` succeeds, its output is a valid
linearization (every emitted node's requires are satisfied by the creates
of strictly earlier emitted nodes), contains each step exactly once, and
its steps are exactly the steps of the nodes reachable from the given
roots. -/
theorem c5_amended_topologicalSort_correct (R : List StepNode)
    (hacyc : AcyclicGraph R) (hwf : WellFormedGraph R) (hwire : ParentWired R) :
    ∃ out, topologicalSort R = .ok out ∧
      linearizedFrom [] out = true ∧
      (out.map StepNode.step).Nodup ∧
      (∀ s, s ∈ out.map StepNode.step ↔ ∃ n, Reaches R n ∧ n.step = s) := by
  obtain ⟨rank, hrank⟩ := hacyc
  have hfuel : ((forestSteps R).filter (fun s => decide (s ∉ ([] : List Step)))).length + 2 ≤
      (forestSteps R).length + 2 := by
    have hle := List.length_filter_le (fun s => decide (s ∉ ([] : List Step))) (forestSteps R)
    omega
  have hinit : SortInv R [] [] [] :=
    ⟨rfl, rfl, rfl, List.nodup_nil, fun n hn => absurd hn (List.not_mem_nil n)⟩
  have hvinit : Vinv R R [] := by
    intro n _ _ hcond
    rcases hcond with h | ⟨m, _, _, hms⟩
    · exact h
    · cases hms
  exact tsort_loop_ok R rank hrank hwf hwire ((forestSteps R).length + 2) R [] [] []
    (fun n hn => Reaches.root hn) hinit hvinit hfuel

theorem w5_reaches : ∀ n, Reaches [w5node] n → n = w5node := by
  intro n h
  induction h with
  | root hmem => simpa using hmem
  | @child m c hm hc ih =>
    subst ih
    exfalso
    simpa [w5node, StepNode.children] using hc

theorem c5_amended_witness :
    AcyclicGraph [w5node] ∧ WellFormedGraph [w5node] ∧ ParentWired [w5node] ∧
    ∃ out, topologicalSort [w5node] = .ok out ∧
      linearizedFrom [] out = true ∧
      (out.map StepNode.step).Nodup ∧
      (∀ s, s ∈ out.map StepNode.step ↔ ∃ n, Reaches [w5node] n ∧ n.step = s) := by
  have hacyc : AcyclicGraph [w5node] := by
    refine ⟨fun _ => 0, ?_⟩
    intro n hn c hc
    rw [w5_reaches n hn] at hc
    exfalso
    simpa [w5node, StepNode.children] using hc
  have hwf : WellFormedGraph [w5node] := by
    intro n m hn hm _
    rw [w5_reaches n hn, w5_reaches m hm]
  have hwire : ParentWired [w5node] := by
    intro n hn l hl
    rw [w5_reaches n hn] at hl
    exfalso
    simpa [w5node, StepNode.step, w5step] using hl
  exact ⟨hacyc, hwf, hwire, c5_amended_topologicalSort_correct [w5node] hacyc hwf hwire⟩
